import Mathlib

/-!
Verification of the spatial partition tree in `perturb_proj_tree.py`.

The embedding models 3-D points as `EuclideanSpace ℝ (Fin 3)` (numpy float
vectors read as real vectors), triangles as triples of points, and the tree
as an inductive type whose `empty` constructor models the Python `None`
returned by `build` on an empty triangle set.

`PerturbProjTree.build` works on parallel arrays of triangles, bounding
sphere centers and (thickness-inflated) radii; we bundle a row of the three
arrays as a `TD` record.  The random partition-center pick
(`np.random.randint`) and the unspecified tie placement of `np.argpartition`
are modelled relationally: `Built ts t` holds exactly when some sequence of
random choices makes `build` return tree `t` on input `ts`.

The external point-to-triangle primitive `project_point_to_triangle`
(imported from `projection`, not part of this repository's sources) is a
parameter `proj` of `query`; the spec describes it as the closest-point-on-
triangle formula, which the theorems either quantify over or instantiate.
-/

namespace PerturbProj

noncomputable section

/-- 3-D points, as real Euclidean vectors. -/
abbrev P : Type := EuclideanSpace ℝ (Fin 3)

/-- Convenience constructor for a concrete 3-D point. -/
def v3 (a b c : ℝ) : P := ![a, b, c]

/-- A triangle: the three rows `A`, `B`, `C` of the numpy `3 × 3` array. -/
abbrev Tri : Type := P × P × P

/-- One row of the parallel arrays handed to `build`: the triangle, its
bounding-sphere center and its (thickness-inflated) bounding-sphere
radius. -/
structure TD : Type where
  tri : Tri
  center : P
  radius : ℝ

instance : Inhabited TD := ⟨⟨(v3 0 0 0, v3 0 0 0, v3 0 0 0), v3 0 0 0, 0⟩⟩

/-- Total list indexing, mirroring numpy fancy indexing (all indices used by
the code are in range, where `getD` agrees with the numpy behaviour). -/
def nth (ts : List TD) (i : ℕ) : TD := ts.getD i default

/-- Total indexing for index lists. -/
def nthIdx (l : List ℕ) (i : ℕ) : ℕ := l.getD i 0

/-- `distances[i]` of `build`: distance from the partition point to the
farthest point of a bounding sphere (`distances_center + curr_tri_radius`). -/
def reach (pc : P) (d : TD) : ℝ := dist d.center pc + d.radius

/-- `distances_center[i] - curr_tri_radius[i]` of `build`: distance from the
partition point to the nearest point of a bounding sphere. -/
def nearestPt (pc : P) (d : TD) : ℝ := dist d.center pc - d.radius

/-- The tree built by `PerturbProjTree.build`.  `empty` models the Python
`None`, `leaf` the `Leaf` namedtuple (a bucket of triangles) and `node` the
`Node` namedtuple (partition center, partition radius, inside and outside
children). -/
inductive Tree : Type where
  | empty : Tree
  | leaf (bucket : List Tri) : Tree
  | node (center : P) (radius : ℝ) (inside outside : Tree) : Tree

/-- `mid = len(distances) // 2`. -/
def midIdx (ts : List TD) : ℕ := ts.length / 2

/-- `partition_center = curr_tri_center[pick]` for the random row `pick`. -/
def pcOf (ts : List TD) (pick : ℕ) : P := (nth ts pick).center

/-- `partition_radius = distances[partition[mid]]`. -/
def prOf (ts : List TD) (pick : ℕ) (part : List ℕ) : ℝ :=
  reach (pcOf ts pick) (nth ts (nthIdx part (midIdx ts)))

/-- `outside_idx = partition[:mid]`. -/
def outsideIdxOf (part : List ℕ) (ts : List TD) : List ℕ := part.take (midIdx ts)

/-- `inside_idx = partition[mid:]` (before the straddler concatenation). -/
def insideCandOf (part : List ℕ) (ts : List TD) : List ℕ := part.drop (midIdx ts)

/-- `both_inside_outside = np.nonzero(distances_center[outside_idx] -
curr_tri_radius[outside_idx] <= partition_radius)[0]`: the list of
*positions within* `outside_idx` whose sphere's nearest point is within the
partition sphere, in increasing order. -/
def bothIdxOf (ts : List TD) (pick : ℕ) (part : List ℕ) : List ℕ :=
  (List.range (outsideIdxOf part ts).length).filter
    (fun p => decide
      (nearestPt (pcOf ts pick) (nth ts (nthIdx (outsideIdxOf part ts) p)) ≤ prOf ts pick part))

/-- `inside_idx = np.concatenate((inside_idx, both_inside_outside))`.  Note
that the code appends the raw positions returned by `np.nonzero`, not
`outside_idx[both_inside_outside]`; the embedding reproduces this. -/
def insideIdxOf (ts : List TD) (pick : ℕ) (part : List ℕ) : List ℕ :=
  insideCandOf part ts ++ bothIdxOf ts pick part

/-- Numpy fancy indexing `arr[idx]` of the parallel arrays by an index list. -/
def select (ts : List TD) (idx : List ℕ) : List TD := idx.map (nth ts)

/-- The data of one recursive step of `build` on `n ≥ 2` triangles: a random
row `pick < n` giving the partition center, and an `np.argpartition(-distances,
mid)` result `part`: a permutation of `0..n-1` whose element at position
`mid` has all larger-or-equal reaches before it and all smaller-or-equal
reaches after it. -/
structure StepOK (ts : List TD) (pick : ℕ) (part : List ℕ) : Prop where
  two_le : 2 ≤ ts.length
  pick_lt : pick < ts.length
  perm : part.Perm (List.range ts.length)
  upper : ∀ p < midIdx ts,
    prOf ts pick part ≤ reach (pcOf ts pick) (nth ts (nthIdx part p))
  lower : ∀ p, midIdx ts < p → p < ts.length →
    reach (pcOf ts pick) (nth ts (nthIdx part p)) ≤ prOf ts pick part

/-- `Built ts t`: some sequence of random partition-center choices (and of
argpartition tie placements) makes `PerturbProjTree.build` return `t` on the
parallel-array input `ts`.  The four constructors are the four return paths
of `build`: empty input, single triangle, the no-progress guard
(`len(inside_idx) == len(curr_triangles)`), and the recursive `Node` case. -/
inductive Built : List TD → Tree → Prop where
  | nil : Built [] .empty
  | single (d : TD) : Built [d] (.leaf [d.tri])
  | stop (ts : List TD) (pick : ℕ) (part : List ℕ) (h : StepOK ts pick part)
      (hall : (insideIdxOf ts pick part).length = ts.length) :
      Built ts (.leaf (ts.map TD.tri))
  | node (ts : List TD) (pick : ℕ) (part : List ℕ) (tIn tOut : Tree)
      (h : StepOK ts pick part)
      (hne : (insideIdxOf ts pick part).length ≠ ts.length)
      (hi : Built (select ts (insideIdxOf ts pick part)) tIn)
      (ho : Built (select ts (outsideIdxOf part ts)) tOut) :
      Built ts (.node (pcOf ts pick) (prOf ts pick part) tIn tOut)

/-- One iteration of the bucket loop in `query`: project the query point onto
a triangle and keep it if strictly closer than the best so far. -/
def leafStep (proj : P → Tri → P) (q : P) (acc : Option P × EReal) (t : Tri) :
    Option P × EReal :=
  let pp := proj q t
  let pd := dist q pp
  if (pd : EReal) < acc.2 then (some pp, (pd : EReal)) else acc

/-- `PerturbProjTree.query`, parametrized by the external
`project_point_to_triangle` primitive `proj` (which already carries the
thickness margin).  The second component is the distance, `⊤ : EReal`
modelling the initial `float("inf")`. -/
def query (proj : P → Tri → P) (q : P) (r : ℝ) : Tree → Option P × EReal
  | .empty => (none, ⊤)
  | .leaf bucket => bucket.foldl (leafStep proj q) (none, ⊤)
  | .node c R ins out =>
    if dist q c > R + r then query proj q r out
    else if dist q c ≤ R - r then query proj q r ins
    else
      let ni := query proj q r ins
      let no := query proj q r out
      if ni.2 < no.2 then ni else no

/-- The triangles stored across all leaf buckets of a tree. -/
def leafTris : Tree → List Tri
  | .empty => []
  | .leaf bucket => bucket
  | .node _ _ ins out => leafTris ins ++ leafTris out

/-- `np.argmax` over three values: index of the first maximum. -/
def argmax3 (e0 e1 e2 : ℝ) : ℕ :=
  if e1 > e0 then (if e2 > e1 then 2 else 1) else (if e2 > e0 then 2 else 0)

/-- `np.dot` of two 3-vectors. -/
def dot3 (u v : P) : ℝ := u 0 * v 0 + u 1 * v 1 + u 2 * v 2

/-- `np.sum(u ** 2)`. -/
def sqsum (u : P) : ℝ := u 0 * u 0 + u 1 * u 1 + u 2 * u 2

/-- `np.cross` of two 3-vectors. -/
def cross (u v : P) : P :=
  ![u 1 * v 2 - u 2 * v 1, u 2 * v 0 - u 0 * v 2, u 0 * v 1 - u 1 * v 0]

/-- `np.mean(np.array([X, Y]), axis = 0)`: the midpoint of two points. -/
def midp (X Y : P) : P := (2⁻¹ : ℝ) • (X + Y)

/-- The circumcenter formula used by the acute branch of `bounding_sphere`:
`A + (|AB|² (AC × N) + |AC|² (N × AB)) / (2 |N|²)` with `N = AB × AC`. -/
def acuteCenter (A B C : P) : P :=
  let A_to_B := B - A
  let A_to_C := C - A
  let normal := cross A_to_B A_to_C
  A + (sqsum normal * 2)⁻¹ •
    (sqsum A_to_B • cross A_to_C normal + sqsum A_to_C • cross normal A_to_B)

/-- `bounding_sphere(tri)` of `perturb_proj_tree.py`, translated line by
line: the right-or-obtuse test on the three edge-vector dot products, the
longest-edge branch (`radius = edges[idx]`, `center` the matching midpoint),
and the circumcenter branch with radius the largest center-to-vertex
distance. -/
def bounding_sphere (t : Tri) : P × ℝ :=
  let A := t.1
  let B := t.2.1
  let C := t.2.2
  let A_to_B := B - A
  let A_to_C := C - A
  let B_to_C := C - B
  if dot3 A_to_B A_to_C ≤ 0 ∨ dot3 A_to_B B_to_C ≤ 0 ∨ dot3 A_to_C B_to_C ≤ 0 then
    let e0 := ‖A_to_B‖
    let e1 := ‖A_to_C‖
    let e2 := ‖B_to_C‖
    let idx := argmax3 e0 e1 e2
    (if idx = 0 then midp A B else if idx = 1 then midp A C else midp B C,
      if idx = 0 then e0 else if idx = 1 then e1 else e2)
  else
    let center := acuteCenter A B C
    (center, max (max (dist A center) (dist B center)) (dist C center))

end

end PerturbProj

namespace PerturbProj

noncomputable section

/-- Distance along the x-axis evaluates to the coordinate difference. -/
lemma dist_x (a b : ℝ) : dist (v3 a 0 0) (v3 b 0 0) = |a - b| := by
  rw [EuclideanSpace.dist_eq]
  simp [Fin.sum_univ_three, v3, Real.dist_eq]
  rw [Real.sqrt_sq_eq_abs]

/-- The distance a query result pair is supposed to report, given its point
component: `+∞` for `none`, the query-point distance otherwise. -/
def resDist (q : P) : Option P → EReal
  | none => ⊤
  | some p => (dist q p : EReal)

/-- The bucket loop of `query` keeps the pair `(point, distance)` consistent:
it only ever replaces the accumulator by a freshly computed pair. -/
lemma leafFold_consistent (proj : P → Tri → P) (q : P) (bucket : List Tri) :
    ∀ acc : Option P × EReal, acc.2 = resDist q acc.1 →
      (bucket.foldl (leafStep proj q) acc).2 =
        resDist q (bucket.foldl (leafStep proj q) acc).1 := by
  induction bucket with
  | nil => intro acc h; simpa using h
  | cons t rest ih =>
    intro acc h
    rw [List.foldl_cons]
    apply ih
    simp only [leafStep]
    split
    · rfl
    · exact h

/-- C10: for every tree node, query point and query radius, the pair
`(p, d)` returned by `query` satisfies: if `p` is a point then `d` is the
Euclidean distance from the query point to `p`, and if `p` is `none` then
`d = +∞`. -/
theorem query_result_consistent (proj : P → Tri → P) (q : P) (r : ℝ) (t : Tree) :
    (query proj q r t).2 = resDist q (query proj q r t).1 := by
  induction t with
  | empty => rfl
  | leaf bucket => exact leafFold_consistent proj q bucket (none, ⊤) rfl
  | node c R ins out ihi iho =>
    show (query proj q r (.node c R ins out)).2 = _
    rw [query]
    split
    · exact iho
    · split
      · exact ihi
      · dsimp only
        split
        · exact ihi
        · exact iho

/-- C9: querying the empty tree (the Python `None` node) returns
`(none, +∞)`; no error path exists. -/
theorem query_empty (proj : P → Tri → P) (q : P) (r : ℝ) :
    query proj q r .empty = (none, ⊤) := rfl

/-- C5 (amended): when neither pruning branch applies, both children are
queried, and on a distance tie the OUTSIDE child's result is returned (the
code keeps the inside result only on a strict `<`). -/
theorem query_tie_returns_outside (proj : P → Tri → P) (q : P) (r : ℝ)
    (c : P) (R : ℝ) (ins out : Tree)
    (h1 : ¬ dist q c > R + r) (h2 : ¬ dist q c ≤ R - r)
    (htie : (query proj q r ins).2 = (query proj q r out).2) :
    query proj q r (.node c R ins out) = query proj q r out := by
  rw [query, if_neg h1, if_neg h2]
  dsimp only
  rw [if_neg]
  rw [htie]
  exact lt_irrefl _

end

end PerturbProj

namespace PerturbProj

noncomputable section

/-- Modelled from the spec: `project_point_to_triangle` (imported from the
external `projection` module, absent from this repository's sources) returns
the closest point of the triangle to the query point.  On the point-like and
segment-like triangles used in the concrete scenarios below that closest
point is always the triangle's first vertex, so the first-vertex function is
a faithful instance of the primitive there. -/
def projFst : P → Tri → P := fun _ t => t.1

/-- A degenerate point-like triangle on the x-axis. -/
def ptTri (x : ℝ) : Tri := (v3 x 0 0, v3 x 0 0, v3 x 0 0)

/-- Evaluating the bucket loop on a one-triangle bucket. -/
lemma query_leaf_single (proj : P → Tri → P) (q : P) (r : ℝ) (t : Tri) :
    query proj q r (.leaf [t]) = (some (proj q t), (dist q (proj q t) : EReal)) := by
  show List.foldl _ _ _ = _
  simp only [List.foldl_cons, List.foldl_nil, leafStep]
  rw [if_pos (EReal.coe_lt_top _)]

/-- The inside and outside children of the tie scenario. -/
def treeC5 : Tree := .node (v3 0 0 0) 1 (.leaf [ptTri 1]) (.leaf [ptTri (-1)])

/-- C5, counterexample: at the node of `treeC5` neither pruning branch
applies, both children are queried, the two results have the same distance 1
but different points, and the value returned is the OUTSIDE child's pair,
not the inside child's pair as the claim states. -/
theorem query_tie_cex :
    ¬ dist (v3 0 0 0) (v3 0 0 0) > 1 + 2 ∧
    ¬ dist (v3 0 0 0) (v3 0 0 0) ≤ 1 - 2 ∧
    query projFst (v3 0 0 0) 2 (.leaf [ptTri 1]) = (some (v3 1 0 0), ((1:ℝ) : EReal)) ∧
    query projFst (v3 0 0 0) 2 (.leaf [ptTri (-1)]) = (some (v3 (-1) 0 0), ((1:ℝ) : EReal)) ∧
    query projFst (v3 0 0 0) 2 treeC5 = (some (v3 (-1) 0 0), ((1:ℝ) : EReal)) ∧
    ((some (v3 (-1) 0 0), ((1:ℝ) : EReal)) : Option P × EReal) ≠
      (some (v3 1 0 0), ((1:ℝ) : EReal)) := by
  have hds : dist (v3 0 0 0) (v3 0 0 0) = 0 := dist_self _
  have hdL : dist (v3 0 0 0) (v3 1 0 0) = 1 := by rw [dist_x]; norm_num
  have hdR : dist (v3 0 0 0) (v3 (-1) 0 0) = 1 := by rw [dist_x]; norm_num
  have hL : query projFst (v3 0 0 0) 2 (.leaf [ptTri 1]) =
      (some (v3 1 0 0), ((1:ℝ) : EReal)) := by
    rw [query_leaf_single]
    show (some (v3 1 0 0), (dist (v3 0 0 0) (v3 1 0 0) : EReal)) = _
    rw [hdL]
  have hR : query projFst (v3 0 0 0) 2 (.leaf [ptTri (-1)]) =
      (some (v3 (-1) 0 0), ((1:ℝ) : EReal)) := by
    rw [query_leaf_single]
    show (some (v3 (-1) 0 0), (dist (v3 0 0 0) (v3 (-1) 0 0) : EReal)) = _
    rw [hdR]
  refine ⟨by rw [hds]; norm_num, by rw [hds]; norm_num, hL, hR, ?_, ?_⟩
  · show query projFst (v3 0 0 0) 2 (.node (v3 0 0 0) 1 (.leaf [ptTri 1]) (.leaf [ptTri (-1)])) = _
    rw [query, if_neg (by rw [hds]; norm_num), if_neg (by rw [hds]; norm_num)]
    dsimp only
    rw [hL, hR]
    rw [if_neg (lt_irrefl _)]
  · intro h
    have h1 : (some (v3 (-1) 0 0) : Option P) = some (v3 1 0 0) := congrArg Prod.fst h
    have h2 : (v3 (-1) 0 0 : P) = v3 1 0 0 := Option.some.inj h1
    have h3 : (-1 : ℝ) = 1 := congrFun h2 0
    norm_num at h3

/-- C5, witness for the amended theorem: at the concrete tie the node query
returns exactly the outside child's result. -/
theorem query_tie_returns_outside_witness :
    query projFst (v3 0 0 0) 2 treeC5 =
      query projFst (v3 0 0 0) 2 (.leaf [ptTri (-1)]) := by
  have hds : dist (v3 0 0 0) (v3 0 0 0) = 0 := dist_self _
  apply query_tie_returns_outside
  · rw [hds]; norm_num
  · rw [hds]; norm_num
  · rw [query_leaf_single, query_leaf_single]
    show ((dist (v3 0 0 0) (v3 1 0 0) : ℝ) : EReal) = ((dist (v3 0 0 0) (v3 (-1) 0 0) : ℝ) : EReal)
    rw [show dist (v3 0 0 0) (v3 1 0 0) = 1 by rw [dist_x]; norm_num,
       show dist (v3 0 0 0) (v3 (-1) 0 0) = 1 by rw [dist_x]; norm_num]

end

end PerturbProj

namespace PerturbProj

noncomputable section

lemma dist_midp_left (X Y : P) : dist (midp X Y) X = ‖Y - X‖ / 2 := by
  rw [dist_eq_norm]
  have h : midp X Y - X = (2⁻¹ : ℝ) • (Y - X) := by
    simp only [midp]; module
  rw [h, norm_smul, Real.norm_eq_abs, abs_of_pos (by norm_num : (0:ℝ) < 2⁻¹)]
  ring

lemma dist_midp_right (X Y : P) : dist (midp X Y) Y = ‖Y - X‖ / 2 := by
  rw [dist_eq_norm]
  have h : midp X Y - Y = (2⁻¹ : ℝ) • (X - Y) := by
    simp only [midp]; module
  rw [h, norm_smul, Real.norm_eq_abs, abs_of_pos (by norm_num : (0:ℝ) < 2⁻¹),
    norm_sub_rev]
  ring

lemma dist_midp_le (X Y Z : P) : dist (midp X Y) Z ≤ (‖Z - X‖ + ‖Z - Y‖) / 2 := by
  rw [dist_eq_norm]
  have h : midp X Y - Z = (2⁻¹ : ℝ) • ((X - Z) + (Y - Z)) := by
    simp only [midp]; module
  rw [h, norm_smul, Real.norm_eq_abs, abs_of_pos (by norm_num : (0:ℝ) < 2⁻¹)]
  have hadd := norm_add_le (X - Z) (Y - Z)
  have h1 : ‖X - Z‖ = ‖Z - X‖ := norm_sub_rev _ _
  have h2 : ‖Y - Z‖ = ‖Z - Y‖ := norm_sub_rev _ _
  linarith

/-- `np.argmax` characterization: the returned index carries the maximum. -/
lemma argmax3_spec (e0 e1 e2 : ℝ) :
    (argmax3 e0 e1 e2 = 0 ∧ e1 ≤ e0 ∧ e2 ≤ e0) ∨
    (argmax3 e0 e1 e2 = 1 ∧ e0 ≤ e1 ∧ e2 ≤ e1) ∨
    (argmax3 e0 e1 e2 = 2 ∧ e0 ≤ e2 ∧ e1 ≤ e2) := by
  unfold argmax3
  split_ifs with h1 h2 h3
  · right; right; exact ⟨rfl, by linarith, by linarith⟩
  · right; left; exact ⟨rfl, by linarith, by linarith⟩
  · right; right; exact ⟨rfl, by linarith, by linarith⟩
  · left; exact ⟨rfl, by linarith, by linarith⟩

/-- Unfolding of `bounding_sphere` on the right-or-obtuse branch. -/
lemma bounding_sphere_obtuse_eq (A B C : P)
    (h : dot3 (B - A) (C - A) ≤ 0 ∨ dot3 (B - A) (C - B) ≤ 0 ∨
      dot3 (C - A) (C - B) ≤ 0) :
    bounding_sphere (A, B, C) =
      (if argmax3 ‖B - A‖ ‖C - A‖ ‖C - B‖ = 0 then midp A B
        else if argmax3 ‖B - A‖ ‖C - A‖ ‖C - B‖ = 1 then midp A C else midp B C,
       if argmax3 ‖B - A‖ ‖C - A‖ ‖C - B‖ = 0 then ‖B - A‖
        else if argmax3 ‖B - A‖ ‖C - A‖ ‖C - B‖ = 1 then ‖C - A‖ else ‖C - B‖) := by
  simp only [bounding_sphere]
  rw [if_pos h]

/-- Unfolding of `bounding_sphere` on the acute branch. -/
lemma bounding_sphere_acute_eq (A B C : P)
    (h : ¬ (dot3 (B - A) (C - A) ≤ 0 ∨ dot3 (B - A) (C - B) ≤ 0 ∨
      dot3 (C - A) (C - B) ≤ 0)) :
    bounding_sphere (A, B, C) =
      (acuteCenter A B C,
       max (max (dist A (acuteCenter A B C)) (dist B (acuteCenter A B C)))
         (dist C (acuteCenter A B C))) := by
  simp only [bounding_sphere]
  rw [if_neg h]

/-- C7: for every triangle, the returned radius is at least the distance
from the returned center to each of the three vertices, and this persists
after adding any non-negative thickness margin.  (The source even satisfies
this without a non-degeneracy assumption.) -/
theorem bounding_sphere_encloses (t : Tri) (th : ℝ) (hth : 0 ≤ th) :
    dist (bounding_sphere t).1 t.1 ≤ (bounding_sphere t).2 + th ∧
    dist (bounding_sphere t).1 t.2.1 ≤ (bounding_sphere t).2 + th ∧
    dist (bounding_sphere t).1 t.2.2 ≤ (bounding_sphere t).2 + th := by
  obtain ⟨A, B, C⟩ := t
  have main : dist (bounding_sphere (A, B, C)).1 A ≤ (bounding_sphere (A, B, C)).2 ∧
      dist (bounding_sphere (A, B, C)).1 B ≤ (bounding_sphere (A, B, C)).2 ∧
      dist (bounding_sphere (A, B, C)).1 C ≤ (bounding_sphere (A, B, C)).2 := by
    by_cases h : dot3 (B - A) (C - A) ≤ 0 ∨ dot3 (B - A) (C - B) ≤ 0 ∨
        dot3 (C - A) (C - B) ≤ 0
    · rw [bounding_sphere_obtuse_eq A B C h]
      have hA := norm_nonneg (B - A)
      have hB := norm_nonneg (C - A)
      have hC := norm_nonneg (C - B)
      rcases argmax3_spec ‖B - A‖ ‖C - A‖ ‖C - B‖ with ⟨hi, ha, hb⟩ | ⟨hi, ha, hb⟩ |
          ⟨hi, ha, hb⟩
      · rw [hi, if_pos rfl, if_pos rfl]
        refine ⟨?_, ?_, ?_⟩
        · rw [dist_midp_left]; linarith
        · rw [dist_midp_right]; linarith
        · have := dist_midp_le A B C
          linarith [norm_sub_rev C A, norm_sub_rev C B]
      · rw [hi, if_neg (by decide : ¬ (1 : ℕ) = 0), if_pos rfl,
          if_neg (by decide : ¬ (1 : ℕ) = 0), if_pos rfl]
        refine ⟨?_, ?_, ?_⟩
        · rw [dist_midp_left]; linarith
        · have := dist_midp_le A C B
          linarith [norm_sub_rev B A, norm_sub_rev B C]
        · rw [dist_midp_right]; linarith
      · rw [hi, if_neg (by decide : ¬ (2 : ℕ) = 0), if_neg (by decide : ¬ (2 : ℕ) = 1),
          if_neg (by decide : ¬ (2 : ℕ) = 0), if_neg (by decide : ¬ (2 : ℕ) = 1)]
        refine ⟨?_, ?_, ?_⟩
        · have := dist_midp_le B C A
          linarith [norm_sub_rev A B, norm_sub_rev A C]
        · rw [dist_midp_left]; linarith
        · rw [dist_midp_right]; linarith
    · rw [bounding_sphere_acute_eq A B C h]
      refine ⟨?_, ?_, ?_⟩
      · rw [dist_comm]
        exact le_trans (le_max_left _ _) (le_max_left _ _)
      · rw [dist_comm]
        exact le_trans (le_max_right _ _) (le_max_left _ _)
      · rw [dist_comm]
        exact le_max_right _ _
  exact ⟨by linarith [main.1], by linarith [main.2.1], by linarith [main.2.2]⟩

/-- C7, witness: the enclosing bound evaluated at a concrete triangle and a
concrete non-negative margin. -/
theorem bounding_sphere_encloses_witness :
    dist (bounding_sphere (ptTri 0)).1 (ptTri 0).1 ≤ (bounding_sphere (ptTri 0)).2 + 1 ∧
    dist (bounding_sphere (ptTri 0)).1 (ptTri 0).2.1 ≤ (bounding_sphere (ptTri 0)).2 + 1 ∧
    dist (bounding_sphere (ptTri 0)).1 (ptTri 0).2.2 ≤ (bounding_sphere (ptTri 0)).2 + 1 :=
  bounding_sphere_encloses (ptTri 0) 1 (by norm_num)

end

end PerturbProj

namespace PerturbProj

noncomputable section

lemma v3_sub (a b c d e f : ℝ) :
    (v3 a b c : P) - v3 d e f = v3 (a - d) (b - e) (c - f) := by
  funext i
  fin_cases i <;> rfl

lemma dot3_v3 (a b c d e f : ℝ) :
    dot3 (v3 a b c) (v3 d e f) = a * d + b * e + c * f := rfl

lemma norm_v3 (a b c : ℝ) :
    ‖(v3 a b c : P)‖ = Real.sqrt (a ^ 2 + b ^ 2 + c ^ 2) := by
  rw [EuclideanSpace.norm_eq]
  simp [v3, Fin.sum_univ_three, Real.norm_eq_abs, sq_abs]

lemma sqrt_eval {x y : ℝ} (hy : 0 ≤ y) (h : x = y ^ 2) : Real.sqrt x = y := by
  rw [h]
  exact Real.sqrt_sq hy

/-- C3 (amended): on the right-or-obtuse branch (as selected by the code's
edge-vector dot-product test) the returned center is the midpoint of a
longest edge and the returned radius is the FULL length of that longest
edge, not half of it. -/
theorem bounding_sphere_right_obtuse (A B C : P)
    (h : dot3 (B - A) (C - A) ≤ 0 ∨ dot3 (B - A) (C - B) ≤ 0 ∨
      dot3 (C - A) (C - B) ≤ 0) :
    (bounding_sphere (A, B, C)).2 = max ‖B - A‖ (max ‖C - A‖ ‖C - B‖) ∧
    ∃ E ∈ [(A, B), (A, C), (B, C)], ‖E.2 - E.1‖ = (bounding_sphere (A, B, C)).2 ∧
      (bounding_sphere (A, B, C)).1 = midp E.1 E.2 := by
  rw [bounding_sphere_obtuse_eq A B C h]
  dsimp only
  rcases argmax3_spec ‖B - A‖ ‖C - A‖ ‖C - B‖ with ⟨hi, ha, hb⟩ | ⟨hi, ha, hb⟩ |
      ⟨hi, ha, hb⟩
  · rw [hi, if_pos rfl, if_pos rfl]
    refine ⟨(max_eq_left (max_le ha hb)).symm, (A, B), by simp, rfl, rfl⟩
  · rw [hi, if_neg (by decide : ¬ (1 : ℕ) = 0), if_pos rfl,
      if_neg (by decide : ¬ (1 : ℕ) = 0), if_pos rfl]
    refine ⟨?_, (A, C), by simp, rfl, rfl⟩
    rw [max_eq_left hb, max_eq_right ha]
  · rw [hi, if_neg (by decide : ¬ (2 : ℕ) = 0), if_neg (by decide : ¬ (2 : ℕ) = 1),
      if_neg (by decide : ¬ (2 : ℕ) = 0), if_neg (by decide : ¬ (2 : ℕ) = 1)]
    refine ⟨?_, (B, C), by simp, rfl, rfl⟩
    rw [max_eq_right hb, max_eq_right ha]

/-- C3, witness: the amended statement at the 3-4-5 right triangle
`(0,0,0), (3,0,0), (0,4,0)`. -/
theorem bounding_sphere_right_obtuse_witness :
    (bounding_sphere (v3 0 0 0, v3 3 0 0, v3 0 4 0)).2 =
      max ‖(v3 3 0 0 : P) - v3 0 0 0‖
        (max ‖(v3 0 4 0 : P) - v3 0 0 0‖ ‖(v3 0 4 0 : P) - v3 3 0 0‖) ∧
    ∃ E ∈ [((v3 0 0 0 : P), (v3 3 0 0 : P)), (v3 0 0 0, v3 0 4 0), (v3 3 0 0, v3 0 4 0)],
      ‖E.2 - E.1‖ = (bounding_sphere (v3 0 0 0, v3 3 0 0, v3 0 4 0)).2 ∧
      (bounding_sphere (v3 0 0 0, v3 3 0 0, v3 0 4 0)).1 = midp E.1 E.2 :=
  bounding_sphere_right_obtuse (v3 0 0 0) (v3 3 0 0) (v3 0 4 0)
    (Or.inl (by rw [v3_sub, v3_sub, dot3_v3]; norm_num))

/-- C3, counterexample: for the right triangle `(0,0,0), (3,0,0), (0,4,0)`
the longest edge is `B`-to-`C` with length 5; the code returns the midpoint
of that edge as center (as the claim states) but radius 5, the FULL edge
length, where the claim demands half of it, `5/2`. -/
theorem bounding_sphere_radius_not_half_cex :
    ‖(v3 0 4 0 : P) - v3 3 0 0‖ = 5 ∧
    ‖(v3 3 0 0 : P) - v3 0 0 0‖ = 3 ∧
    ‖(v3 0 4 0 : P) - v3 0 0 0‖ = 4 ∧
    bounding_sphere (v3 0 0 0, v3 3 0 0, v3 0 4 0) = (midp (v3 3 0 0) (v3 0 4 0), 5) ∧
    (5 : ℝ) ≠ 5 / 2 := by
  have h0 : ‖(v3 3 0 0 : P) - v3 0 0 0‖ = 3 := by
    rw [v3_sub, norm_v3]; exact sqrt_eval (by norm_num) (by norm_num)
  have h1 : ‖(v3 0 4 0 : P) - v3 0 0 0‖ = 4 := by
    rw [v3_sub, norm_v3]; exact sqrt_eval (by norm_num) (by norm_num)
  have h2 : ‖(v3 0 4 0 : P) - v3 3 0 0‖ = 5 := by
    rw [v3_sub, norm_v3]; exact sqrt_eval (by norm_num) (by norm_num)
  refine ⟨h2, h0, h1, ?_, by norm_num⟩
  rw [bounding_sphere_obtuse_eq (v3 0 0 0) (v3 3 0 0) (v3 0 4 0)
    (Or.inl (by rw [v3_sub, v3_sub, dot3_v3]; norm_num))]
  rw [h0, h1, h2]
  have hidx : argmax3 (3 : ℝ) 4 5 = 2 := by unfold argmax3; norm_num
  rw [hidx, if_neg (by decide : ¬ (2 : ℕ) = 0), if_neg (by decide : ¬ (2 : ℕ) = 1),
    if_neg (by decide : ¬ (2 : ℕ) = 0), if_neg (by decide : ¬ (2 : ℕ) = 1)]

/-- C6 (amended): `bounding_sphere` raises nothing on degenerate triangles;
there is no `GeometryError` anywhere in the code.  A fully repeated-vertex
triangle satisfies the right-or-obtuse test (all edge dot products are 0),
takes that branch — which performs no division — and returns the vertex
itself with radius 0. -/
theorem bounding_sphere_degenerate_returns (A : P) :
    bounding_sphere (A, A, A) = (A, 0) := by
  have hz : dot3 (A - A) (A - A) ≤ 0 := by
    rw [sub_self]
    show (0 : ℝ) * 0 + 0 * 0 + 0 * 0 ≤ 0
    norm_num
  rw [bounding_sphere_obtuse_eq A A A (Or.inl hz)]
  rw [sub_self, norm_zero]
  have hidx : argmax3 (0 : ℝ) 0 0 = 0 := by unfold argmax3; norm_num
  rw [hidx, if_pos rfl, if_pos rfl]
  simp only [Prod.mk.injEq]
  refine ⟨?_, trivial⟩
  simp only [midp]
  module

/-- C6, counterexample: at the concrete degenerate (collinear, in fact
point-like) triangle with all three vertices `(0,0,0)`, `bounding_sphere`
returns the pair `((0,0,0), 0)` — it does not fail. -/
theorem bounding_sphere_no_raise_cex :
    bounding_sphere (ptTri 0) = (v3 0 0 0, 0) := by
  have hz : dot3 (v3 0 0 0 - v3 0 0 0) (v3 0 0 0 - v3 0 0 0) ≤ 0 := by
    rw [v3_sub, dot3_v3]
    norm_num
  show bounding_sphere (v3 0 0 0, v3 0 0 0, v3 0 0 0) = (v3 0 0 0, 0)
  rw [bounding_sphere_obtuse_eq (v3 0 0 0) (v3 0 0 0) (v3 0 0 0) (Or.inl hz)]
  rw [sub_self, norm_zero]
  have hidx : argmax3 (0 : ℝ) 0 0 = 0 := by unfold argmax3; norm_num
  rw [hidx, if_pos rfl, if_pos rfl]
  simp only [Prod.mk.injEq]
  refine ⟨?_, trivial⟩
  simp only [midp]
  module

end

end PerturbProj

namespace PerturbProj

noncomputable section

lemma nth_mem {ts : List TD} {i : ℕ} (hi : i < ts.length) : nth ts i ∈ ts := by
  unfold nth
  rw [List.getD_eq_getElem ts default hi]
  exact List.getElem_mem hi

lemma nthIdx_mem {l : List ℕ} {p : ℕ} (hp : p < l.length) : nthIdx l p ∈ l := by
  unfold nthIdx
  rw [List.getD_eq_getElem l 0 hp]
  exact List.getElem_mem hp

lemma part_length (ts : List TD) (pick : ℕ) (part : List ℕ)
    (h : StepOK ts pick part) : part.length = ts.length := by
  rw [h.perm.length_eq, List.length_range]

lemma mem_part_lt (ts : List TD) (pick : ℕ) (part : List ℕ)
    (h : StepOK ts pick part) {i : ℕ} (hi : i ∈ part) : i < ts.length :=
  List.mem_range.mp (h.perm.mem_iff.mp hi)

lemma length_outsideIdx (ts : List TD) (pick : ℕ) (part : List ℕ)
    (h : StepOK ts pick part) : (outsideIdxOf part ts).length = midIdx ts := by
  unfold outsideIdxOf
  rw [List.length_take, part_length ts pick part h]
  exact min_eq_left (Nat.div_le_self _ _)

lemma length_insideCand (ts : List TD) (pick : ℕ) (part : List ℕ)
    (h : StepOK ts pick part) :
    (insideCandOf part ts).length = ts.length - midIdx ts := by
  unfold insideCandOf
  rw [List.length_drop, part_length ts pick part h]

lemma length_insideIdx_le (ts : List TD) (pick : ℕ) (part : List ℕ)
    (h : StepOK ts pick part) :
    (insideIdxOf ts pick part).length ≤ ts.length := by
  unfold insideIdxOf
  rw [List.length_append, length_insideCand ts pick part h]
  have hle : (bothIdxOf ts pick part).length ≤ midIdx ts := by
    unfold bothIdxOf
    calc (List.filter _ (List.range (outsideIdxOf part ts).length)).length
        ≤ (List.range (outsideIdxOf part ts).length).length :=
          List.length_filter_le _ _
      _ = midIdx ts := by rw [List.length_range, length_outsideIdx ts pick part h]
  have hmid : midIdx ts ≤ ts.length := Nat.div_le_self _ _
  omega

/-- In the recursive case both of `build`'s recursive calls act on strictly
fewer triangles. -/
lemma step_decrease (ts : List TD) (pick : ℕ) (part : List ℕ)
    (h : StepOK ts pick part)
    (hne : (insideIdxOf ts pick part).length ≠ ts.length) :
    (insideIdxOf ts pick part).length < ts.length ∧
    (outsideIdxOf part ts).length < ts.length := by
  constructor
  · exact lt_of_le_of_ne (length_insideIdx_le ts pick part h) hne
  · rw [length_outsideIdx ts pick part h]
    have h2 := h.two_le
    unfold midIdx
    omega

/-- If every triangle's nearest sphere point lies within the partition
sphere then every outside candidate passes the straddle test, so
`len(inside_idx) == len(curr_triangles)` and the no-progress guard fires. -/
lemma all_inside_stop (ts : List TD) (pick : ℕ) (part : List ℕ)
    (h : StepOK ts pick part)
    (hin : ∀ d ∈ ts, nearestPt (pcOf ts pick) d ≤ prOf ts pick part) :
    (insideIdxOf ts pick part).length = ts.length := by
  unfold insideIdxOf
  rw [List.length_append, length_insideCand ts pick part h]
  have hfil : (bothIdxOf ts pick part).length = midIdx ts := by
    unfold bothIdxOf
    rw [List.filter_length_eq_length.mpr ?_, List.length_range,
      length_outsideIdx ts pick part h]
    intro p hp
    rw [List.mem_range] at hp
    rw [decide_eq_true_eq]
    apply hin
    have hmem : nthIdx (outsideIdxOf part ts) p ∈ part := by
      have := nthIdx_mem hp
      unfold outsideIdxOf at this
      exact List.take_subset _ _ this
    exact nth_mem (mem_part_lt ts pick part h hmem)
  rw [hfil]
  have hmid : midIdx ts ≤ ts.length := Nat.div_le_self _ _
  omega

/-- Every index appearing in `inside_idx` is a valid row index. -/
lemma insideIdx_lt (ts : List TD) (pick : ℕ) (part : List ℕ)
    (h : StepOK ts pick part) :
    ∀ i ∈ insideIdxOf ts pick part, i < ts.length := by
  intro i hi
  unfold insideIdxOf at hi
  rw [List.mem_append] at hi
  rcases hi with hi | hi
  · exact mem_part_lt ts pick part h (List.drop_subset _ _ hi)
  · unfold bothIdxOf at hi
    have h1 := (List.mem_filter.mp hi).1
    rw [List.mem_range] at h1
    calc i < (outsideIdxOf part ts).length := h1
      _ ≤ part.length := by
          unfold outsideIdxOf
          rw [List.length_take]
          exact min_le_right _ _
      _ = ts.length := part_length ts pick part h

lemma outsideIdx_lt (ts : List TD) (pick : ℕ) (part : List ℕ)
    (h : StepOK ts pick part) :
    ∀ i ∈ outsideIdxOf part ts, i < ts.length := by
  intro i hi
  unfold outsideIdxOf at hi
  exact mem_part_lt ts pick part h (List.take_subset _ _ hi)

lemma select_map_tri_subset (ts : List TD) (idx : List ℕ)
    (hidx : ∀ i ∈ idx, i < ts.length) :
    ∀ x ∈ (select ts idx).map TD.tri, x ∈ ts.map TD.tri := by
  intro x hx
  rw [List.mem_map] at hx ⊢
  obtain ⟨d, hd, rfl⟩ := hx
  unfold select at hd
  rw [List.mem_map] at hd
  obtain ⟨i, hi, rfl⟩ := hd
  exact ⟨nth ts i, nth_mem (hidx i hi), rfl⟩

/-- Each row of `ts` lands in the inside selection or the outside
selection (or both). -/
lemma mem_split (ts : List TD) (pick : ℕ) (part : List ℕ)
    (h : StepOK ts pick part) {x : Tri} (hx : x ∈ ts.map TD.tri) :
    x ∈ (select ts (insideIdxOf ts pick part)).map TD.tri ∨
    x ∈ (select ts (outsideIdxOf part ts)).map TD.tri := by
  rw [List.mem_map] at hx
  obtain ⟨d, hd, rfl⟩ := hx
  rw [List.mem_iff_getElem] at hd
  obtain ⟨i, hi, rfl⟩ := hd
  have hipart : i ∈ part := h.perm.mem_iff.mpr (List.mem_range.mpr hi)
  rw [← List.take_append_drop (midIdx ts) part, List.mem_append] at hipart
  have hnth : nth ts i = ts[i] := List.getD_eq_getElem ts default hi
  rcases hipart with hin | hin
  · right
    rw [List.mem_map]
    refine ⟨nth ts i, ?_, by rw [hnth]⟩
    unfold select outsideIdxOf
    rw [List.mem_map]
    exact ⟨i, hin, rfl⟩
  · left
    rw [List.mem_map]
    refine ⟨nth ts i, ?_, by rw [hnth]⟩
    unfold select insideIdxOf
    rw [List.mem_map]
    exact ⟨i, List.mem_append_left _ hin, rfl⟩

/-- C4: for every finite input and every sequence of random choices, the
triangles collected over all leaf buckets of the built tree are, as a set,
exactly the input triangles: none lost, none fabricated. -/
theorem build_leaves_union (ts : List TD) (t : Tree) (hb : Built ts t) :
    ∀ x, x ∈ leafTris t ↔ x ∈ ts.map TD.tri := by
  induction hb with
  | nil => intro x; simp [leafTris]
  | single d => intro x; simp [leafTris]
  | stop ts pick part h hall => intro x; simp [leafTris]
  | node ts pick part tIn tOut h hne hi ho ihIn ihOut =>
    intro x
    show x ∈ leafTris (.node _ _ tIn tOut) ↔ _
    simp only [leafTris, List.mem_append]
    rw [ihIn x, ihOut x]
    constructor
    · rintro (hx | hx)
      · exact select_map_tri_subset ts _ (insideIdx_lt ts pick part h) x hx
      · exact select_map_tri_subset ts _ (outsideIdx_lt ts pick part h) x hx
    · intro hx
      exact mem_split ts pick part h hx

/-- C4, witness: the union property evaluated on a one-triangle tree. -/
theorem build_leaves_union_witness :
    ptTri 0 ∈ leafTris (.leaf [ptTri 0]) ↔
      ptTri 0 ∈ [(⟨ptTri 0, v3 0 0 0, 0⟩ : TD)].map TD.tri :=
  build_leaves_union [⟨ptTri 0, v3 0 0 0, 0⟩] (.leaf [ptTri 0])
    (Built.single ⟨ptTri 0, v3 0 0 0, 0⟩) (ptTri 0)

end

end PerturbProj

namespace PerturbProj

noncomputable section

/-- The sort key of `np.argpartition(-distances, mid)` for partition center
row 0: larger reach comes first. -/
def reachKey (ts : List TD) (i : ℕ) : ℝ := reach (pcOf ts 0) (nth ts i)

/-- Boolean descending-reach comparator used to realize an argpartition. -/
def reachCmp (ts : List TD) (i j : ℕ) : Bool := decide (reachKey ts j ≤ reachKey ts i)

/-- Some argpartition result exists for every input with at least two rows:
sorting the indices by descending reach realizes one. -/
lemma exists_stepOK (ts : List TD) (h2 : 2 ≤ ts.length) :
    ∃ part, StepOK ts 0 part := by
  have htrans : ∀ a b c : ℕ, reachCmp ts a b = true → reachCmp ts b c = true →
      reachCmp ts a c = true := by
    intro a b c hab hbc
    simp only [reachCmp, decide_eq_true_eq] at hab hbc ⊢
    exact le_trans hbc hab
  have htotal : ∀ a b : ℕ, (reachCmp ts a b || reachCmp ts b a) = true := by
    intro a b
    simp only [reachCmp, Bool.or_eq_true, decide_eq_true_eq]
    exact le_total (reachKey ts b) (reachKey ts a)
  have hperm : ((List.range ts.length).mergeSort (reachCmp ts)).Perm
      (List.range ts.length) := List.mergeSort_perm _ _
  have hsorted := List.sorted_mergeSort htrans htotal (List.range ts.length)
  have hlen : ((List.range ts.length).mergeSort (reachCmp ts)).length = ts.length := by
    rw [hperm.length_eq, List.length_range]
  have hmidlt : midIdx ts < ((List.range ts.length).mergeSort (reachCmp ts)).length := by
    rw [hlen]
    unfold midIdx
    omega
  refine ⟨(List.range ts.length).mergeSort (reachCmp ts), h2, by omega, hperm, ?_, ?_⟩
  · intro p hp
    have hplt : p < ((List.range ts.length).mergeSort (reachCmp ts)).length := by
      omega
    have hrel := List.pairwise_iff_getElem.mp hsorted p (midIdx ts) hplt hmidlt hp
    simp only [reachCmp, decide_eq_true_eq] at hrel
    show reachKey ts (nthIdx ((List.range ts.length).mergeSort (reachCmp ts)) (midIdx ts)) ≤
      reachKey ts (nthIdx ((List.range ts.length).mergeSort (reachCmp ts)) p)
    simp only [nthIdx]
    rw [List.getD_eq_getElem _ 0 hplt, List.getD_eq_getElem _ 0 hmidlt]
    exact hrel
  · intro p hmidp hpn
    have hplt : p < ((List.range ts.length).mergeSort (reachCmp ts)).length := by
      omega
    have hrel := List.pairwise_iff_getElem.mp hsorted (midIdx ts) p hmidlt hplt hmidp
    simp only [reachCmp, decide_eq_true_eq] at hrel
    show reachKey ts (nthIdx ((List.range ts.length).mergeSort (reachCmp ts)) p) ≤
      reachKey ts (nthIdx ((List.range ts.length).mergeSort (reachCmp ts)) (midIdx ts))
    simp only [nthIdx]
    rw [List.getD_eq_getElem _ 0 hplt, List.getD_eq_getElem _ 0 hmidlt]
    exact hrel

/-- Every input admits a finite run of `build`. -/
lemma built_total : ∀ (n : ℕ) (ts : List TD), ts.length ≤ n → ∃ t, Built ts t := by
  intro n
  induction n with
  | zero =>
    intro ts h
    have hnil : ts = [] := List.eq_nil_of_length_eq_zero (Nat.le_zero.mp h)
    subst hnil
    exact ⟨_, Built.nil⟩
  | succ n ih =>
    intro ts hlen
    rcases ts with _ | ⟨d, ts'⟩
    · exact ⟨_, Built.nil⟩
    rcases ts' with _ | ⟨d2, rest⟩
    · exact ⟨_, Built.single d⟩
    have h2 : 2 ≤ (d :: d2 :: rest).length := by
      simp only [List.length_cons]
      omega
    obtain ⟨part, hstep⟩ := exists_stepOK _ h2
    by_cases hall : (insideIdxOf (d :: d2 :: rest) 0 part).length =
        (d :: d2 :: rest).length
    · exact ⟨_, Built.stop _ 0 part hstep hall⟩
    · obtain ⟨hinlt, houtlt⟩ := step_decrease _ 0 part hstep hall
      have hlen2 : (d :: d2 :: rest).length ≤ n + 1 := hlen
      have hiL : (select (d :: d2 :: rest)
          (insideIdxOf (d :: d2 :: rest) 0 part)).length ≤ n := by
        unfold select
        rw [List.length_map]
        omega
      have hoL : (select (d :: d2 :: rest) (outsideIdxOf part (d :: d2 :: rest))).length
          ≤ n := by
        unfold select
        rw [List.length_map]
        omega
      obtain ⟨tIn, hIn⟩ := ih _ hiL
      obtain ⟨tOut, hOut⟩ := ih _ hoL
      exact ⟨_, Built.node _ 0 part tIn tOut hstep hall hIn hOut⟩

/-- C8: `build` terminates on every finite input and every sequence of
random choices: a run exists for every input; whenever the partition
classifies every triangle as inside (its nearest sphere point within the
partition sphere) the guard fires and a leaf holding all current triangles
is returned; and in every other case both recursive calls receive strictly
fewer triangles than the current set. -/
theorem build_terminates (ts : List TD) :
    (∃ t, Built ts t) ∧
    ∀ pick part, StepOK ts pick part →
      ((∀ d ∈ ts, nearestPt (pcOf ts pick) d ≤ prOf ts pick part) →
        Built ts (.leaf (ts.map TD.tri))) ∧
      ((insideIdxOf ts pick part).length ≠ ts.length →
        (insideIdxOf ts pick part).length < ts.length ∧
        (outsideIdxOf part ts).length < ts.length) := by
  refine ⟨built_total ts.length ts le_rfl, ?_⟩
  intro pick part hstep
  exact ⟨fun hin => Built.stop ts pick part hstep
      (all_inside_stop ts pick part hstep hin),
    step_decrease ts pick part hstep⟩

end

end PerturbProj

namespace PerturbProj

noncomputable section

/-- A segment-like triangle `(a,0,0), (b,0,0), (b,0,0)` on the x-axis.  Its
first two "edges" coincide, the third is zero, so the right-or-obtuse branch
of `bounding_sphere` applies and returns center `((a+b)/2, 0, 0)` and radius
`|b - a|` (the full segment length); with thickness 0 these are exactly the
center/radius data `build` receives for it. -/
def segTri (a b : ℝ) : Tri := (v3 a 0 0, v3 b 0 0, v3 b 0 0)

/-- Row 0: segment `[-1/2, 1/2]`, sphere center 0, stored radius 1. -/
def td0 : TD := ⟨segTri (1/2) (-(1/2)), v3 0 0 0, 1⟩

/-- Row 1: segment `[-1/2, 3/2]`, sphere center `1/2`, stored radius 2. -/
def td1 : TD := ⟨segTri (3/2) (-(1/2)), v3 (1/2) 0 0, 2⟩

/-- Row 2: segment `[6, 7]`, sphere center `13/2`, stored radius 1. -/
def td2 : TD := ⟨segTri 6 7, v3 (13/2) 0 0, 1⟩

/-- Row 3 (the straddler): segment `[21/10, 31/10]`, sphere center `13/5`,
stored radius 1. -/
def td3 : TD := ⟨segTri (21/10) (31/10), v3 (13/5) 0 0, 1⟩

/-- The four-row input of the concrete failing scenario. -/
def cexTs : List TD := [td0, td1, td2, td3]

/-- The tree one run of `build` returns on `cexTs` (root pick 0, argpartition
`[2,3,1,0]`; inside child pick 1, argpartition `[0,2,1]`; outside child pick
0, argpartition `[1,0]`).  Because the code appends raw `np.nonzero`
positions instead of `outside_idx` entries, the straddling row 3 appears
only under the outside child while row 1 is duplicated inside. -/
def cexTree : Tree :=
  .node (v3 0 0 0) (5/2)
    (.leaf [td1.tri, td0.tri, td1.tri])
    (.node (v3 (13/2) 0 0) 1 (.leaf [td2.tri]) (.leaf [td3.tri]))

lemma reach_seg (t : Tri) (c ρ x : ℝ) :
    reach (v3 x 0 0) ⟨t, v3 c 0 0, ρ⟩ = |c - x| + ρ := by
  simp only [reach]
  rw [dist_x]

lemma nearestPt_seg (t : Tri) (c ρ x : ℝ) :
    nearestPt (v3 x 0 0) ⟨t, v3 c 0 0, ρ⟩ = |c - x| - ρ := by
  simp only [nearestPt]
  rw [dist_x]

lemma reach_seg_le (t : Tri) (c ρ x : ℝ) (h : x ≤ c) :
    reach (v3 x 0 0) ⟨t, v3 c 0 0, ρ⟩ = c - x + ρ := by
  rw [reach_seg, abs_of_nonneg (by linarith)]

lemma nearestPt_seg_le (t : Tri) (c ρ x : ℝ) (h : x ≤ c) :
    nearestPt (v3 x 0 0) ⟨t, v3 c 0 0, ρ⟩ = c - x - ρ := by
  rw [nearestPt_seg, abs_of_nonneg (by linarith)]

lemma filter_range_one_false {f : ℕ → Bool} (h0 : f 0 = false) :
    (List.range 1).filter f = [] := by
  have h : List.range 1 = [0] := rfl
  rw [h]
  simp [List.filter_cons, h0]

lemma filter_range_one_true {f : ℕ → Bool} (h0 : f 0 = true) :
    (List.range 1).filter f = [0] := by
  have h : List.range 1 = [0] := rfl
  rw [h]
  simp [List.filter_cons, h0]

lemma filter_range_two_ft {f : ℕ → Bool} (h0 : f 0 = false) (h1 : f 1 = true) :
    (List.range 2).filter f = [1] := by
  have h : List.range 2 = [0, 1] := rfl
  rw [h]
  simp [List.filter_cons, h0, h1]

/-- The partition radius of the failing root step is `5/2`. -/
lemma cex_pr : prOf cexTs 0 [2, 3, 1, 0] = 5 / 2 := by
  show reach (v3 0 0 0) td1 = 5 / 2
  rw [show reach (v3 0 0 0) td1 = 1/2 - 0 + 2 from
    reach_seg_le (segTri (3/2) (-(1/2))) (1/2) 2 0 (by norm_num)]
  norm_num

/-- The failing root step is a legitimate argpartition step. -/
lemma cex_step : StepOK cexTs 0 [2, 3, 1, 0] := by
  refine ⟨?_, ?_, ?_, ?_, ?_⟩
  · show 2 ≤ (4 : ℕ)
    norm_num
  · show 0 < (4 : ℕ)
    norm_num
  · decide
  · intro p hp
    have hp2 : p < 2 := hp
    rw [cex_pr]
    interval_cases p
    · show (5 : ℝ) / 2 ≤ reach (v3 0 0 0) td2
      rw [show reach (v3 0 0 0) td2 = 13/2 - 0 + 1 from
        reach_seg_le (segTri 6 7) (13/2) 1 0 (by norm_num)]
      norm_num
    · show (5 : ℝ) / 2 ≤ reach (v3 0 0 0) td3
      rw [show reach (v3 0 0 0) td3 = 13/5 - 0 + 1 from
        reach_seg_le (segTri (21/10) (31/10)) (13/5) 1 0 (by norm_num)]
      norm_num
  · intro p hp1 hp2
    have hp1' : 2 < p := hp1
    have hp2' : p < 4 := hp2
    have hp3 : p = 3 := by omega
    subst hp3
    rw [cex_pr]
    show reach (v3 0 0 0) td0 ≤ (5 : ℝ) / 2
    rw [show reach (v3 0 0 0) td0 = 0 - 0 + 1 from
      reach_seg_le (segTri (1/2) (-(1/2))) 0 1 0 (by norm_num)]
    norm_num

/-- Row 2 is NOT a straddler at the root step. -/
lemma cex_not_straddle2 : ¬ nearestPt (pcOf cexTs 0) (nth cexTs 2) ≤
    prOf cexTs 0 [2, 3, 1, 0] := by
  rw [cex_pr]
  show ¬ nearestPt (v3 0 0 0) td2 ≤ 5 / 2
  rw [show nearestPt (v3 0 0 0) td2 = 13/2 - 0 - 1 from
    nearestPt_seg_le (segTri 6 7) (13/2) 1 0 (by norm_num)]
  norm_num

/-- Row 3 IS a straddler at the root step. -/
lemma cex_straddle3 : nearestPt (pcOf cexTs 0) (nth cexTs 3) ≤
    prOf cexTs 0 [2, 3, 1, 0] := by
  rw [cex_pr]
  show nearestPt (v3 0 0 0) td3 ≤ 5 / 2
  rw [show nearestPt (v3 0 0 0) td3 = 13/5 - 0 - 1 from
    nearestPt_seg_le (segTri (21/10) (31/10)) (13/5) 1 0 (by norm_num)]
  norm_num

/-- The straddle filter of the root step returns position list `[1]`. -/
lemma cex_both : bothIdxOf cexTs 0 [2, 3, 1, 0] = [1] := by
  unfold bothIdxOf
  have houts : outsideIdxOf [2, 3, 1, 0] cexTs = [2, 3] := rfl
  rw [houts]
  apply filter_range_two_ft
  · exact decide_eq_false cex_not_straddle2
  · exact decide_eq_true cex_straddle3

/-- The inside index list built by the root step: the two inside candidates
`[1, 0]` plus the raw position `1` — row 3 is missing. -/
lemma cex_insideIdx : insideIdxOf cexTs 0 [2, 3, 1, 0] = [1, 0, 1] := by
  unfold insideIdxOf
  rw [cex_both]
  rfl

/-- C2, code evaluation at the failing input: at the root step on `cexTs`
(pick 0, argpartition `[2,3,1,0]`), the split has the claimed sizes
`⌊4/2⌋ = 2` and `⌈4/2⌉ = 2`, row 3 is an outside candidate whose
nearest-point distance is within the partition radius, yet row index 3 is
NOT placed in the inside list: the code appends the `np.nonzero` position 1
instead, so the inside list is `[1, 0, 1]`. -/
theorem straddler_dropped_cex :
    StepOK cexTs 0 [2, 3, 1, 0] ∧
    outsideIdxOf [2, 3, 1, 0] cexTs = [2, 3] ∧
    (outsideIdxOf [2, 3, 1, 0] cexTs).length = 2 ∧
    (insideCandOf [2, 3, 1, 0] cexTs).length = 2 ∧
    (3 : ℕ) ∈ outsideIdxOf [2, 3, 1, 0] cexTs ∧
    nearestPt (pcOf cexTs 0) (nth cexTs 3) ≤ prOf cexTs 0 [2, 3, 1, 0] ∧
    insideIdxOf cexTs 0 [2, 3, 1, 0] = [1, 0, 1] ∧
    (3 : ℕ) ∉ insideIdxOf cexTs 0 [2, 3, 1, 0] := by
  refine ⟨cex_step, rfl, rfl, rfl, ?_, cex_straddle3, cex_insideIdx, ?_⟩
  · show (3 : ℕ) ∈ [2, 3]
    simp
  · rw [cex_insideIdx]
    decide

end

end PerturbProj

namespace PerturbProj

noncomputable section

lemma reach_seg_ge (t : Tri) (c ρ x : ℝ) (h : c ≤ x) :
    reach (v3 x 0 0) ⟨t, v3 c 0 0, ρ⟩ = x - c + ρ := by
  rw [reach_seg, abs_of_nonpos (by linarith), neg_sub]

lemma nearestPt_seg_ge (t : Tri) (c ρ x : ℝ) (h : c ≤ x) :
    nearestPt (v3 x 0 0) ⟨t, v3 c 0 0, ρ⟩ = x - c - ρ := by
  rw [nearestPt_seg, abs_of_nonpos (by linarith), neg_sub]

lemma dist_x_ge (a b : ℝ) (h : b ≤ a) :
    dist (v3 a 0 0) (v3 b 0 0) = a - b := by
  rw [dist_x, abs_of_nonneg (by linarith)]

lemma dist_x_le (a b : ℝ) (h : a ≤ b) :
    dist (v3 a 0 0) (v3 b 0 0) = b - a := by
  rw [dist_x, abs_of_nonpos (by linarith), neg_sub]

/-- The inside rows selected by the failing root step (row 1 duplicated,
row 3 absent). -/
def tsIn : List TD := [td1, td0, td1]

/-- The outside rows selected by the failing root step. -/
def tsOut : List TD := [td2, td3]

lemma cexIn_pr : prOf tsIn 1 [0, 2, 1] = 5 / 2 := by
  show reach (v3 0 0 0) td1 = 5 / 2
  rw [show reach (v3 0 0 0) td1 = 1/2 - 0 + 2 from
    reach_seg_le (segTri (3/2) (-(1/2))) (1/2) 2 0 (by norm_num)]
  norm_num

lemma cexIn_step : StepOK tsIn 1 [0, 2, 1] := by
  refine ⟨?_, ?_, ?_, ?_, ?_⟩
  · show 2 ≤ (3 : ℕ)
    norm_num
  · show 1 < (3 : ℕ)
    norm_num
  · decide
  · intro p hp
    have hp1 : p < 1 := hp
    have hp0 : p = 0 := by omega
    subst hp0
    rw [cexIn_pr]
    show (5 : ℝ) / 2 ≤ reach (v3 0 0 0) td1
    rw [show reach (v3 0 0 0) td1 = 1/2 - 0 + 2 from
      reach_seg_le (segTri (3/2) (-(1/2))) (1/2) 2 0 (by norm_num)]
    norm_num
  · intro p hp1 hp2
    have h1 : (1 : ℕ) < p := hp1
    have h2 : p < 3 := hp2
    have hp3 : p = 2 := by omega
    subst hp3
    rw [cexIn_pr]
    show reach (v3 0 0 0) td0 ≤ (5 : ℝ) / 2
    rw [show reach (v3 0 0 0) td0 = 0 - 0 + 1 from
      reach_seg_le (segTri (1/2) (-(1/2))) 0 1 0 (by norm_num)]
    norm_num

lemma cexIn_both : bothIdxOf tsIn 1 [0, 2, 1] = [0] := by
  unfold bothIdxOf
  have houts : outsideIdxOf [0, 2, 1] tsIn = [0] := rfl
  rw [houts]
  apply filter_range_one_true
  apply decide_eq_true
  rw [cexIn_pr]
  show nearestPt (v3 0 0 0) td1 ≤ 5 / 2
  rw [show nearestPt (v3 0 0 0) td1 = 1/2 - 0 - 2 from
    nearestPt_seg_le (segTri (3/2) (-(1/2))) (1/2) 2 0 (by norm_num)]
  norm_num

lemma cexIn_all : (insideIdxOf tsIn 1 [0, 2, 1]).length = tsIn.length := by
  unfold insideIdxOf
  rw [cexIn_both]
  rfl

lemma cex_built_inside : Built tsIn (.leaf [td1.tri, td0.tri, td1.tri]) :=
  Built.stop tsIn 1 [0, 2, 1] cexIn_step cexIn_all

lemma cexOut_pr : prOf tsOut 0 [1, 0] = 1 := by
  show reach (v3 (13/2) 0 0) td2 = 1
  rw [show reach (v3 (13/2) 0 0) td2 = 13/2 - 13/2 + 1 from
    reach_seg_le (segTri 6 7) (13/2) 1 (13/2) (by norm_num)]
  norm_num

lemma cexOut_step : StepOK tsOut 0 [1, 0] := by
  refine ⟨?_, ?_, ?_, ?_, ?_⟩
  · show 2 ≤ (2 : ℕ)
    norm_num
  · show 0 < (2 : ℕ)
    norm_num
  · decide
  · intro p hp
    have hp1 : p < 1 := hp
    have hp0 : p = 0 := by omega
    subst hp0
    rw [cexOut_pr]
    show (1 : ℝ) ≤ reach (v3 (13/2) 0 0) td3
    rw [show reach (v3 (13/2) 0 0) td3 = 13/2 - 13/5 + 1 from
      reach_seg_ge (segTri (21/10) (31/10)) (13/5) 1 (13/2) (by norm_num)]
    norm_num
  · intro p hp1 hp2
    have h1 : (1 : ℕ) < p := hp1
    have h2 : p < 2 := hp2
    omega

lemma cexOut_both : bothIdxOf tsOut 0 [1, 0] = [] := by
  unfold bothIdxOf
  have houts : outsideIdxOf [1, 0] tsOut = [1] := rfl
  rw [houts]
  apply filter_range_one_false
  apply decide_eq_false
  rw [cexOut_pr]
  show ¬ nearestPt (v3 (13/2) 0 0) td3 ≤ 1
  rw [show nearestPt (v3 (13/2) 0 0) td3 = 13/2 - 13/5 - 1 from
    nearestPt_seg_ge (segTri (21/10) (31/10)) (13/5) 1 (13/2) (by norm_num)]
  norm_num

lemma cexOut_insideIdx : insideIdxOf tsOut 0 [1, 0] = [0] := by
  unfold insideIdxOf
  rw [cexOut_both]
  rfl

lemma cex_built_outside :
    Built tsOut (.node (v3 (13/2) 0 0) 1 (.leaf [td2.tri]) (.leaf [td3.tri])) := by
  have hne : (insideIdxOf tsOut 0 [1, 0]).length ≠ tsOut.length := by
    rw [cexOut_insideIdx]
    show (1 : ℕ) ≠ 2
    norm_num
  have hi : Built (select tsOut (insideIdxOf tsOut 0 [1, 0])) (.leaf [td2.tri]) := by
    rw [show select tsOut (insideIdxOf tsOut 0 [1, 0]) = [td2] by
      rw [cexOut_insideIdx]
      rfl]
    exact Built.single td2
  have ho : Built (select tsOut (outsideIdxOf [1, 0] tsOut)) (.leaf [td3.tri]) :=
    Built.single td3
  have h := Built.node tsOut 0 [1, 0] (.leaf [td2.tri]) (.leaf [td3.tri])
    cexOut_step hne hi ho
  rwa [cexOut_pr] at h

/-- One full run of `build` on `cexTs` returns `cexTree`. -/
lemma cex_built : Built cexTs cexTree := by
  have hne : (insideIdxOf cexTs 0 [2, 3, 1, 0]).length ≠ cexTs.length := by
    rw [cex_insideIdx]
    show (3 : ℕ) ≠ 4
    norm_num
  have hi : Built (select cexTs (insideIdxOf cexTs 0 [2, 3, 1, 0]))
      (.leaf [td1.tri, td0.tri, td1.tri]) := by
    rw [show select cexTs (insideIdxOf cexTs 0 [2, 3, 1, 0]) = tsIn by
      rw [cex_insideIdx]
      rfl]
    exact cex_built_inside
  have ho : Built (select cexTs (outsideIdxOf [2, 3, 1, 0] cexTs))
      (.node (v3 (13/2) 0 0) 1 (.leaf [td2.tri]) (.leaf [td3.tri])) :=
    cex_built_outside
  have h := Built.node cexTs 0 [2, 3, 1, 0] _ _ cex_step hne hi ho
  rwa [cex_pr] at h

end

end PerturbProj

namespace PerturbProj

noncomputable section

/-- The query point of the failing scenario. -/
def qC : P := v3 2 0 0

/-- The claim's "true nearest distance": the minimum over all input rows of
the distance from the query point to the row's projected point (`+∞` for an
empty input, matching the code's initialization). -/
def bestDist (proj : P → Tri → P) (q : P) (ts : List TD) : EReal :=
  (ts.map fun d => ((dist q (proj q d.tri) : ℝ) : EReal)).foldr min ⊤

lemma leafStep_lt (proj : P → Tri → P) (q : P) (acc : Option P × EReal) (t : Tri)
    (d : ℝ) (hd : dist q (proj q t) = d) (hlt : (d : EReal) < acc.2) :
    leafStep proj q acc t = (some (proj q t), (d : EReal)) := by
  simp only [leafStep]
  rw [hd, if_pos hlt]

lemma leafStep_keep (proj : P → Tri → P) (q : P) (acc : Option P × EReal) (t : Tri)
    (d : ℝ) (hd : dist q (proj q t) = d) (hge : ¬ (d : EReal) < acc.2) :
    leafStep proj q acc t = acc := by
  simp only [leafStep]
  rw [hd, if_neg hge]

lemma cex_d0 : dist qC (projFst qC td0.tri) = 3 / 2 := by
  show dist (v3 2 0 0) (v3 (1/2) 0 0) = 3 / 2
  rw [dist_x_ge 2 (1/2) (by norm_num)]
  norm_num

lemma cex_d1 : dist qC (projFst qC td1.tri) = 1 / 2 := by
  show dist (v3 2 0 0) (v3 (3/2) 0 0) = 1 / 2
  rw [dist_x_ge 2 (3/2) (by norm_num)]
  norm_num

lemma cex_d2 : dist qC (projFst qC td2.tri) = 4 := by
  show dist (v3 2 0 0) (v3 6 0 0) = 4
  rw [dist_x_le 2 6 (by norm_num)]
  norm_num

lemma cex_d3 : dist qC (projFst qC td3.tri) = 1 / 10 := by
  show dist (v3 2 0 0) (v3 (21/10) 0 0) = 1 / 10
  rw [dist_x_le 2 (21/10) (by norm_num)]
  norm_num

/-- Evaluating the bucket loop on the inside child of `cexTree`. -/
lemma cex_query_leaf :
    query projFst qC (1/2) (.leaf [td1.tri, td0.tri, td1.tri]) =
      (some (v3 (3/2) 0 0), ((1/2 : ℝ) : EReal)) := by
  show List.foldl (leafStep projFst qC) (none, ⊤) [td1.tri, td0.tri, td1.tri] = _
  rw [List.foldl_cons, leafStep_lt projFst qC (none, ⊤) td1.tri (1/2) cex_d1
    (EReal.coe_lt_top _)]
  rw [List.foldl_cons, leafStep_keep projFst qC
    (some (projFst qC td1.tri), ((1/2 : ℝ) : EReal)) td0.tri (3/2) cex_d0
    (by simp only [EReal.coe_lt_coe_iff]; norm_num)]
  rw [List.foldl_cons, leafStep_keep projFst qC
    (some (projFst qC td1.tri), ((1/2 : ℝ) : EReal)) td1.tri (1/2) cex_d1
    (lt_irrefl _)]
  rw [List.foldl_nil]
  rfl

/-- Evaluating `query` on `cexTree`: the root prunes into the inside child
only (`dist = 2 ≤ 5/2 - 1/2`). -/
lemma cex_query :
    query projFst qC (1/2) cexTree = (some (v3 (3/2) 0 0), ((1/2 : ℝ) : EReal)) := by
  have hd : dist qC (v3 0 0 0) = 2 := by
    show dist (v3 2 0 0) (v3 0 0 0) = 2
    rw [dist_x_ge 2 0 (by norm_num)]
    norm_num
  show query projFst qC (1/2)
    (.node (v3 0 0 0) (5/2) (.leaf [td1.tri, td0.tri, td1.tri])
      (.node (v3 (13/2) 0 0) 1 (.leaf [td2.tri]) (.leaf [td3.tri]))) = _
  rw [query, if_neg (by rw [hd]; norm_num), if_pos (by rw [hd]; norm_num)]
  exact cex_query_leaf

/-- The true nearest distance over all four rows is `1/10`, attained at the
straddling row 3. -/
lemma cex_bestDist : bestDist projFst qC cexTs = ((1/10 : ℝ) : EReal) := by
  show (List.map (fun d => ((dist qC (projFst qC d.tri) : ℝ) : EReal))
    [td0, td1, td2, td3]).foldr min ⊤ = _
  simp only [List.map_cons, List.map_nil, List.foldr_cons, List.foldr_nil]
  rw [cex_d0, cex_d1, cex_d2, cex_d3]
  rw [min_eq_left (le_top : ((1/10 : ℝ) : EReal) ≤ ⊤)]
  rw [min_eq_right (by rw [EReal.coe_le_coe_iff]; norm_num :
    ((1/10 : ℝ) : EReal) ≤ ((4 : ℝ) : EReal))]
  rw [min_eq_right (by rw [EReal.coe_le_coe_iff]; norm_num :
    ((1/10 : ℝ) : EReal) ≤ ((1/2 : ℝ) : EReal))]
  rw [min_eq_right (by rw [EReal.coe_le_coe_iff]; norm_num :
    ((1/10 : ℝ) : EReal) ≤ ((3/2 : ℝ) : EReal))]

/-- C1, code evaluation at the failing input: `cexTree` is a tree `build`
returns on `cexTs`; with the closest-point primitive instantiated as the
first-vertex map (which IS the exact closest point of each of these segment
triangles to the query point `(2,0,0)`), the true nearest distance is
`1/10`, attained on the straddling row 3; the query radius `1/2` is a valid
upper bound on it; yet `query` returns distance `1/2`: the root step's
index bug left row 3 out of the inside child, and the `d ≤ R - r` branch
descends into the inside child only. -/
theorem query_misses_nearest_cex :
    Built cexTs cexTree ∧
    bestDist projFst qC cexTs = ((1/10 : ℝ) : EReal) ∧
    bestDist projFst qC cexTs ≤ ((1/2 : ℝ) : EReal) ∧
    query projFst qC (1/2) cexTree = (some (v3 (3/2) 0 0), ((1/2 : ℝ) : EReal)) ∧
    (query projFst qC (1/2) cexTree).2 ≠ bestDist projFst qC cexTs := by
  refine ⟨cex_built, cex_bestDist, ?_, cex_query, ?_⟩
  · rw [cex_bestDist, EReal.coe_le_coe_iff]
    norm_num
  · rw [cex_query, cex_bestDist]
    show ((1/2 : ℝ) : EReal) ≠ ((1/10 : ℝ) : EReal)
    intro hcon
    rw [EReal.coe_eq_coe_iff] at hcon
    norm_num at hcon

/-- C8, witness: the termination facts evaluated on concrete two-row
inputs; `[td0, td2]` recurses with strictly smaller halves, `[td0, td0]`
triggers the all-inside guard and yields the leaf of all rows. -/
theorem build_terminates_witness :
    (∃ t, Built [td0, td2] t) ∧
    ((insideIdxOf [td0, td2] 0 [1, 0]).length < ([td0, td2] : List TD).length ∧
      (outsideIdxOf [1, 0] [td0, td2]).length < ([td0, td2] : List TD).length) ∧
    Built [td0, td0] (.leaf ([td0, td0].map TD.tri)) := by
  have hpr1 : prOf [td0, td2] 0 [1, 0] = 1 := by
    show reach (v3 0 0 0) td0 = 1
    rw [show reach (v3 0 0 0) td0 = 0 - 0 + 1 from
      reach_seg_le (segTri (1/2) (-(1/2))) 0 1 0 (by norm_num)]
    norm_num
  have hstep1 : StepOK [td0, td2] 0 [1, 0] := by
    refine ⟨?_, ?_, ?_, ?_, ?_⟩
    · show 2 ≤ (2 : ℕ)
      norm_num
    · show 0 < (2 : ℕ)
      norm_num
    · decide
    · intro p hp
      have hp1 : p < 1 := hp
      have hp0 : p = 0 := by omega
      subst hp0
      rw [hpr1]
      show (1 : ℝ) ≤ reach (v3 0 0 0) td2
      rw [show reach (v3 0 0 0) td2 = 13/2 - 0 + 1 from
        reach_seg_le (segTri 6 7) (13/2) 1 0 (by norm_num)]
      norm_num
    · intro p hp1 hp2
      have h1 : (1 : ℕ) < p := hp1
      have h2 : p < 2 := hp2
      omega
  have hboth1 : bothIdxOf [td0, td2] 0 [1, 0] = [] := by
    unfold bothIdxOf
    have houts : outsideIdxOf [1, 0] [td0, td2] = [1] := rfl
    rw [houts]
    apply filter_range_one_false
    apply decide_eq_false
    rw [hpr1]
    show ¬ nearestPt (v3 0 0 0) td2 ≤ 1
    rw [show nearestPt (v3 0 0 0) td2 = 13/2 - 0 - 1 from
      nearestPt_seg_le (segTri 6 7) (13/2) 1 0 (by norm_num)]
    norm_num
  have hne1 : (insideIdxOf [td0, td2] 0 [1, 0]).length ≠ ([td0, td2] : List TD).length := by
    unfold insideIdxOf
    rw [hboth1]
    show (1 : ℕ) ≠ 2
    norm_num
  have hpr2 : prOf [td0, td0] 0 [0, 1] = 1 := by
    show reach (v3 0 0 0) td0 = 1
    rw [show reach (v3 0 0 0) td0 = 0 - 0 + 1 from
      reach_seg_le (segTri (1/2) (-(1/2))) 0 1 0 (by norm_num)]
    norm_num
  have hstep2 : StepOK [td0, td0] 0 [0, 1] := by
    refine ⟨?_, ?_, ?_, ?_, ?_⟩
    · show 2 ≤ (2 : ℕ)
      norm_num
    · show 0 < (2 : ℕ)
      norm_num
    · decide
    · intro p hp
      have hp1 : p < 1 := hp
      have hp0 : p = 0 := by omega
      subst hp0
      rw [hpr2]
      show (1 : ℝ) ≤ reach (v3 0 0 0) td0
      rw [show reach (v3 0 0 0) td0 = 0 - 0 + 1 from
        reach_seg_le (segTri (1/2) (-(1/2))) 0 1 0 (by norm_num)]
      norm_num
    · intro p hp1 hp2
      have h1 : (1 : ℕ) < p := hp1
      have h2 : p < 2 := hp2
      omega
  have hin2 : ∀ d ∈ ([td0, td0] : List TD),
      nearestPt (pcOf [td0, td0] 0) d ≤ prOf [td0, td0] 0 [0, 1] := by
    intro d hd
    rw [hpr2]
    have hd0 : d = td0 := by
      rcases List.mem_cons.mp hd with h | h
      · exact h
      · rcases List.mem_cons.mp h with h' | h'
        · exact h'
        · exact absurd h' (List.not_mem_nil d)
    subst hd0
    show nearestPt (v3 0 0 0) td0 ≤ 1
    rw [show nearestPt (v3 0 0 0) td0 = 0 - 0 - 1 from
      nearestPt_seg_le (segTri (1/2) (-(1/2))) 0 1 0 (by norm_num)]
    norm_num
  exact ⟨(build_terminates [td0, td2]).1,
    ((build_terminates [td0, td2]).2 0 [1, 0] hstep1).2 hne1,
    ((build_terminates [td0, td0]).2 0 [0, 1] hstep2).1 hin2⟩

end

end PerturbProj
